import Mathlib

/-!
Verification development for the folder-audit tool (folder_auditV3.py).

The source is embedded shallowly:
* filesystem stat results are abstracted as an input listing of `FsFile`
  values (one per file enumerated by os.walk), where a `none` stat result
  models an OSError (PermissionError / FileNotFoundError);
* Python floats are modelled as exact rationals, with the built-in round
  modelled as round-half-to-even (`pyRound`), the CPython default;
* the per-file try/except in scan_folder is modelled by `processFile`
  returning `none` for a skipped file;
* find_duplicates returns `Except String _`, where `Except.error` models
  the raised ValueError.
-/

set_option autoImplicit false

namespace FolderAudit

/-- Model of the Python built-in round with no digits argument: round half
to even (bankers rounding), returning an integer. -/
def pyRound (q : ℚ) : ℤ :=
  let f := ⌊q⌋
  let r := q - (f : ℚ)
  if r < 1/2 then f
  else if 1/2 < r then f + 1
  else if f % 2 = 0 then f else f + 1

/-- Model of round(q, 2): round to two decimal places, half to even. -/
def round2 (q : ℚ) : ℚ :=
  (pyRound (q * 100) : ℚ) / 100

/-- Auxiliary scan for os.path.splitext over the characters of a filename:
returns the suffix starting at the last dot, provided some character
strictly before that dot is not itself a dot (CPython skips the leading
dots of the basename, so ".bashrc" has no extension).  The flag records
whether a non-dot character occurred before the current position. -/
def extAux : Bool → List Char → Option (List Char)
  | _, [] => none
  | seen, c :: rest =>
    match extAux (seen || decide (c ≠ '.')) rest with
    | some e => some e
    | none => if c = '.' ∧ seen = true then some (c :: rest) else none

/-- Model of os.path.splitext(filename)[1] on a separator-free filename:
the extension including its leading dot, or empty. -/
def splitextExtL (l : List Char) : List Char :=
  (extAux false l).getD []

/-- String version of `splitextExtL`. -/
def splitextExt (s : String) : String :=
  ⟨splitextExtL s.data⟩

/-- Model of the Python str.lower method: lower-case every character. -/
def strLower (s : String) : String :=
  ⟨s.data.map Char.toLower⟩

/-- One file enumerated during the os.walk traversal.  `dir` is the root
directory under which the file was listed; `sizeResult` and `mtimeResult`
are the outcomes of os.path.getsize and os.path.getmtime, where `none`
models the OSError caught by the except clause (file vanished or
permission denied).  The mtime is carried already formatted. -/
structure FsFile where
  dir : String
  filename : String
  sizeResult : Option Nat
  mtimeResult : Option String
deriving DecidableEq

/-- A record produced by scan_folder: the dictionary with keys filename,
full_path, extension, size_kb, last_modified. -/
structure FileRecord where
  filename : String
  full_path : String
  extension : String
  size_kb : ℚ
  last_modified : String
deriving DecidableEq

/-- The MIN_SIZE_KB module constant (files smaller than this are ignored). -/
def MIN_SIZE_KB : ℚ := 10

/-- The RECURSIVE module constant. -/
def RECURSIVE : Bool := true

/-- The body of the per-file loop of scan_folder: compute the extension,
stat the file, apply the minimum-size filter, read the mtime, and build
the record; `none` models both the size filter (continue) and the caught
PermissionError / FileNotFoundError (skip). -/
def processFile (min_size_kb : ℚ) (f : FsFile) : Option FileRecord :=
  match f.sizeResult with
  | none => none
  | some size_bytes =>
    let size_kb := round2 ((size_bytes : ℚ) / 1024)
    if size_kb < min_size_kb then none
    else
      match f.mtimeResult with
      | none => none
      | some last_modified =>
        some { filename := f.filename
             , full_path := f.dir ++ "/" ++ f.filename
             , extension := strLower (splitextExt f.filename)
             , size_kb := size_kb
             , last_modified := last_modified }

/-- scan_folder: walk the tree (the traversal is abstracted as the listing
`walk`), skip entries outside the root when not recursive, and accumulate
the records of the qualifying files in traversal order.  The source reads
the threshold and the recursion flag from the module constants
`MIN_SIZE_KB` and `RECURSIVE`; they are parameters here so that every
configuration is covered. -/
def scan_folder (folder_path : String) (recursive : Bool) (min_size_kb : ℚ)
    (walk : List FsFile) : List FileRecord :=
  walk.filterMap fun f =>
    if recursive = false ∧ f.dir ≠ folder_path then none
    else processFile min_size_kb f

/-- Summary statistics computed (and printed) by print_summary. -/
structure Summary where
  total_files : ℕ
  total_size_kb : ℚ
  average_size_kb : ℚ
  median_size_kb : ℚ
deriving DecidableEq

/-- Model of statistics.median on a nonempty list: sort ascending, take
the middle element, or the mean of the two middle elements. -/
def pymedian (l : List ℚ) : ℚ :=
  let s := l.insertionSort (· ≤ ·)
  let n := s.length
  if n % 2 = 1 then s.getD (n / 2) 0
  else (s.getD (n / 2 - 1) 0 + s.getD (n / 2) 0) / 2

/-- The statistics computed by print_summary: count, sum, the median of
the strictly positive sizes (0 when there are none), and the mean
(0 when there are no records). -/
def print_summary (records : List FileRecord) : Summary :=
  let total_files := records.length
  let total_size_kb := (records.map fun r => r.size_kb).sum
  let size_values := (records.filter fun r => decide (0 < r.size_kb)).map
    fun r => r.size_kb
  let median_size_kb := if size_values = [] then 0 else pymedian size_values
  let average_size_kb :=
    if 0 < total_files then total_size_kb / (total_files : ℚ) else 0
  { total_files := total_files
  , total_size_kb := total_size_kb
  , average_size_kb := average_size_kb
  , median_size_kb := median_size_kb }

/-- A duplicate-group key: in size mode the pair of the rounded half size
and the lower-cased extension, in name mode the lower-cased filename. -/
inductive DupKey where
  | bySize (halfSize : ℤ) (ext : String)
  | byName (nameLower : String)
deriving DecidableEq

/-- The grouping key find_duplicates computes for one record; `none`
models reaching the else branch that raises ValueError. -/
def keyOf (mode : String) (r : FileRecord) : Option DupKey :=
  if mode = "size" then
    some (DupKey.bySize (pyRound (r.size_kb / 2)) (strLower r.extension))
  else if mode = "name" then
    some (DupKey.byName (strLower r.filename))
  else none

/-- The groups mapping built by find_duplicates, as an association list
in key-insertion order (the iteration order of a Python dict). -/
abbrev Groups := List (DupKey × List FileRecord)

/-- groups[key].append(r) on a defaultdict(list): append to the group of
an existing key, or append a new singleton group at the end. -/
def insertGroup : Groups → DupKey → FileRecord → Groups
  | [], k, r => [(k, [r])]
  | (k₀, rs₀) :: rest, k, r =>
    if k₀ = k then (k₀, rs₀ ++ [r]) :: rest
    else (k₀, rs₀) :: insertGroup rest k r

/-- The loop of find_duplicates: key each record in turn and append it to
its group; `none` models the ValueError raised on the first record whose
mode is unrecognized. -/
def buildGroups (mode : String) : List FileRecord → Groups → Option Groups
  | [], gs => some gs
  | r :: rest, gs =>
    match keyOf mode r with
    | some k => buildGroups mode rest (insertGroup gs k r)
    | none => none

/-- find_duplicates: group the records by the mode key, then keep only
the groups with more than one member.  `Except.error` carries the message
of the ValueError raised for an unrecognized mode. -/
def find_duplicates (records : List FileRecord) (mode : String) :
    Except String Groups :=
  match buildGroups mode records [] with
  | some gs => Except.ok (gs.filter fun kv => decide (1 < kv.2.length))
  | none => Except.error "Mode must be either 'size' or 'name'"

/-- The boolean test that a record is assigned key `k` under `mode`. -/
def keyed (mode : String) (k : DupKey) (r : FileRecord) : Bool :=
  decide (keyOf mode r = some k)

/-- Loop invariant of find_duplicates: after the records in `P` have been
processed, the groups mapping `gs` has pairwise-distinct keys, each group
holds exactly the processed records with its key in processed order, and
keys absent from the mapping have no processed record. -/
def groupInv (mode : String) (P : List FileRecord) (gs : Groups) : Prop :=
  gs.Pairwise (fun a b => a.1 ≠ b.1)
  ∧ (∀ kv ∈ gs, kv.2 = P.filter (keyed mode kv.1))
  ∧ (∀ k : DupKey, k ∉ gs.map Prod.fst → P.filter (keyed mode k) = [])

/-- Concrete pdf record of 11.0 KB. -/
def c3pdfA : FileRecord := ⟨"a.pdf", "/x/a.pdf", "pdf", 11, "t1"⟩

/-- Concrete pdf record of 12.5 KB. -/
def c3pdfB : FileRecord := ⟨"b.pdf", "/y/b.pdf", "pdf", 25 / 2, "t2"⟩

/-- Concrete docx record of 11.0 KB. -/
def c3docx : FileRecord := ⟨"c.docx", "/x/c.docx", "docx", 11, "t3"⟩

/-- Concrete record named Report.PDF. -/
def c4rep1 : FileRecord := ⟨"Report.PDF", "/d1/Report.PDF", ".pdf", 20, "t1"⟩

/-- Concrete record named report.pdf in another directory. -/
def c4rep2 : FileRecord := ⟨"report.pdf", "/d2/report.pdf", ".pdf", 30, "t2"⟩

/-- Concrete record named report.pdf.bak. -/
def c4bak : FileRecord :=
  ⟨"report.pdf.bak", "/d1/report.pdf.bak", ".bak", 20, "t3"⟩

/-- Concrete record for the invalid-mode theorem. -/
def c5rec : FileRecord := ⟨"a.txt", "/a/a.txt", ".txt", 20, "t"⟩

/-- Concrete record whose lower-cased filename is x.txt. -/
def c6r1 : FileRecord := ⟨"X.txt", "/a/X.txt", ".txt", 20, "t1"⟩

/-- Concrete record whose lower-cased filename is also x.txt. -/
def c6r2 : FileRecord := ⟨"x.TXT", "/b/x.TXT", ".txt", 30, "t2"⟩

/-- The duplicate groups found among c6r1 and c6r2 in name mode. -/
def c6gs : Groups := [(DupKey.byName "x.txt", [c6r1, c6r2])]

/-- Concrete record of 40 KB. -/
def c10r1 : FileRecord := ⟨"a.bin", "/a/a.bin", ".bin", 40, "t1"⟩

/-- Concrete record of 41 KB, in the same 2 KB bucket as c10r1. -/
def c10r2 : FileRecord := ⟨"b.bin", "/b/b.bin", ".bin", 41, "t2"⟩

/-- The duplicate groups found among c10r1 and c10r2 in size mode. -/
def c10gs : Groups := [(DupKey.bySize 20 ".bin", [c10r1, c10r2])]

/-- Concrete file used to exercise the scan theorems: 20480 bytes is
exactly 20 KB. -/
def c1file : FsFile :=
  ⟨"root", "doc.pdf", some 20480, some "2024-01-01 00:00:00"⟩

/-- The record scan_folder produces for `c1file`. -/
def c1rec : FileRecord :=
  ⟨"doc.pdf", "root/doc.pdf", ".pdf", 20, "2024-01-01 00:00:00"⟩

/-- Concrete file for the extension theorem. -/
def c7file : FsFile := ⟨"r", "Note.TXT", some 102400, some "t"⟩

/-- The record scan_folder produces for `c7file`. -/
def c7rec : FileRecord := ⟨"Note.TXT", "r/Note.TXT", ".txt", 100, "t"⟩

/-- Concrete file named ..a: it has a dot after the leading position, yet
splitext assigns it no extension because every character before its last
dot is itself a dot. -/
def c7dotfile : FsFile := ⟨"r", "..a", some 20480, some "t"⟩

/-- The record scan_folder produces for `c7dotfile`: empty extension. -/
def c7dotrec : FileRecord := ⟨"..a", "r/..a", "", 20, "t"⟩

/-- Concrete accessible file for the skip theorem. -/
def c8good : FsFile := ⟨"r", "a.txt", some 20480, some "t"⟩

/-- Concrete file whose stat calls fail. -/
def c8bad : FsFile := ⟨"r", "gone.txt", none, none⟩

-- Theorems ------------------------------------------------------------

theorem processFile_some {min_size_kb : ℚ} {f : FsFile} {r : FileRecord}
    (h : processFile min_size_kb f = some r) :
    min_size_kb ≤ r.size_kb ∧ r.filename = f.filename ∧
    r.extension = strLower (splitextExt f.filename) := by
  rcases f with ⟨d, fn, sz, mt⟩
  cases sz with
  | none => simp [processFile] at h
  | some b =>
    cases mt with
    | none =>
      simp only [processFile] at h
      split at h
      · exact absurd h (by simp)
      · exact absurd h (by simp)
    | some t =>
      simp only [processFile] at h
      split at h
      · exact absurd h (by simp)
      · rename_i hlt
        injection h with h
        subst h
        exact ⟨le_of_not_lt hlt, rfl, rfl⟩

theorem mem_scan_folder {folder_path : String} {recursive : Bool}
    {min_size_kb : ℚ} {walk : List FsFile} {r : FileRecord}
    (hr : r ∈ scan_folder folder_path recursive min_size_kb walk) :
    ∃ f ∈ walk, processFile min_size_kb f = some r := by
  obtain ⟨f, hf, hsome⟩ := List.mem_filterMap.mp hr
  refine ⟨f, hf, ?_⟩
  split at hsome
  · exact absurd hsome (by simp)
  · exact hsome

/-- C1: every record in the sequence returned by scan_folder satisfies
size_kb greater or equal to the minimum-size threshold, for every root
path, recursion flag and threshold; a file whose rounded size_kb is below
the threshold never appears, since its record would violate this bound. -/
theorem C1_scan_records_meet_min_size (folder_path : String)
    (recursive : Bool) (min_size_kb : ℚ) (walk : List FsFile)
    (r : FileRecord)
    (hr : r ∈ scan_folder folder_path recursive min_size_kb walk) :
    min_size_kb ≤ r.size_kb := by
  obtain ⟨f, _, hsome⟩ := mem_scan_folder hr
  exact (processFile_some hsome).1

theorem c1_scan_eval : scan_folder "root" true 10 [c1file] = [c1rec] := by
  simp only [scan_folder, List.filterMap_cons, List.filterMap_nil,
    processFile, c1file]
  norm_num [round2, pyRound, c1rec]
  decide

theorem C1_witness :
    c1rec ∈ scan_folder "root" true 10 [c1file] ∧ (10 : ℚ) ≤ c1rec.size_kb :=
  ⟨by simp [c1_scan_eval],
   C1_scan_records_meet_min_size "root" true 10 [c1file] c1rec
     (by simp [c1_scan_eval])⟩

theorem extAux_eq_none {l : List Char} (h : '.' ∉ l) :
    ∀ seen, extAux seen l = none := by
  induction l with
  | nil => intro seen; rfl
  | cons c rest ih =>
    intro seen
    have hc : c ≠ '.' := fun e => h (e ▸ List.mem_cons_self c rest)
    have hrest : '.' ∉ rest := fun hm => h (List.mem_cons_of_mem _ hm)
    simp only [extAux, ih hrest]
    exact if_neg (fun hh => hc hh.1)

theorem extAux_last {suf : List Char} (hs : '.' ∉ suf) :
    ∀ (pre : List Char) (seen : Bool),
      (seen = true ∨ ∃ c ∈ pre, c ≠ '.') →
      extAux seen (pre ++ '.' :: suf) = some ('.' :: suf) := by
  intro pre
  induction pre with
  | nil =>
    intro seen hseen
    have hst : seen = true := by
      rcases hseen with h | ⟨c, hc, _⟩
      · exact h
      · cases hc
    subst hst
    simp only [List.nil_append, extAux, extAux_eq_none hs]
    simp
  | cons a pre ih =>
    intro seen hseen
    have hrec : extAux (seen || decide (a ≠ '.')) (pre ++ '.' :: suf)
        = some ('.' :: suf) := by
      apply ih
      by_cases ha : a = '.'
      · rcases hseen with h | ⟨c, hc, hcne⟩
        · left; simp [h]
        · rcases List.mem_cons.mp hc with rfl | hc2
          · exact absurd ha hcne
          · right; exact ⟨c, hc2, hcne⟩
      · left; simp [ha]
    simp only [List.cons_append, extAux, List.append_eq, hrec]

theorem extAux_all_dots {suf : List Char} (hs : '.' ∉ suf) :
    ∀ pre : List Char, (∀ c ∈ pre, c = '.') →
      extAux false (pre ++ '.' :: suf) = none := by
  intro pre
  induction pre with
  | nil =>
    intro _
    simp only [List.nil_append, extAux, extAux_eq_none hs]
    simp
  | cons a pre ih =>
    intro hall
    have ha : a = '.' := hall a (List.mem_cons_self a pre)
    subst ha
    have hpre : ∀ c ∈ pre, c = '.' := fun c hc =>
      hall c (List.mem_cons_of_mem _ hc)
    have hb : (false || decide (('.' : Char) ≠ '.')) = false := by simp
    simp only [List.cons_append, extAux, hb, List.append_eq, ih hpre]
    simp

/-- C7 counterexample: the claim as stated predicts the extension .a for
a scanned file named ..a, since that name has a dot after the leading
position; the code instead stores the empty extension, because splitext
treats every leading dot of the basename as part of the name. -/
theorem C7_counterexample :
    scan_folder "r" true 10 [c7dotfile] = [c7dotrec]
    ∧ c7dotrec.extension = ""
    ∧ decide (c7dotrec.extension = ".a") = false := by
  refine ⟨?_, rfl, by decide⟩
  simp only [scan_folder, List.filterMap_cons, List.filterMap_nil,
    processFile, c7dotfile]
  norm_num [round2, pyRound, c7dotrec]
  decide

/-- C7 (amended): the extension stored in every scanned record is the
result of splitext on the filename, lower-cased, and splitext obeys the
following complete case analysis: when some character strictly before the
last dot is not itself a dot, the extension is the suffix of the filename
starting at that last dot (leading separator included); when every
character before the last dot is a dot (dotfile-style names such as
.bashrc or ..a, even though they have a dot after the leading position),
and when the filename has no dot at all, the extension is empty. -/
theorem C7_extension_semantics_amended :
    (∀ (folder_path : String) (recursive : Bool) (min_size_kb : ℚ)
      (walk : List FsFile) (r : FileRecord),
      r ∈ scan_folder folder_path recursive min_size_kb walk →
      r.extension = strLower (splitextExt r.filename))
    ∧ (∀ pre suf : List Char, '.' ∉ suf → (∃ c ∈ pre, c ≠ '.') →
        splitextExtL (pre ++ '.' :: suf) = '.' :: suf)
    ∧ (∀ pre suf : List Char, '.' ∉ suf → (∀ c ∈ pre, c = '.') →
        splitextExtL (pre ++ '.' :: suf) = [])
    ∧ (∀ l : List Char, '.' ∉ l → splitextExtL l = []) := by
  refine ⟨?_, ?_, ?_, ?_⟩
  · intro folder_path recursive min_size_kb walk r hr
    obtain ⟨f, _, hsome⟩ := mem_scan_folder hr
    obtain ⟨-, hname, hext⟩ := processFile_some hsome
    rw [hext, hname]
  · intro pre suf hs hpre
    unfold splitextExtL
    rw [extAux_last hs pre false (Or.inr hpre)]
    rfl
  · intro pre suf hs hpre
    unfold splitextExtL
    rw [extAux_all_dots hs pre hpre]
    rfl
  · intro l hl
    unfold splitextExtL
    rw [extAux_eq_none hl false]
    rfl

theorem c7_scan_eval : scan_folder "r" true 10 [c7file] = [c7rec] := by
  simp only [scan_folder, List.filterMap_cons, List.filterMap_nil,
    processFile, c7file]
  norm_num [round2, pyRound, c7rec]
  decide

theorem C7_witness :
    c7rec.extension = strLower (splitextExt c7rec.filename)
    ∧ splitextExtL (['n', 'o', 't', 'e'] ++ '.' :: ['t', 'x', 't'])
        = '.' :: ['t', 'x', 't']
    ∧ splitextExtL (['.'] ++ '.' :: ['a']) = []
    ∧ splitextExtL ['R', 'E', 'A', 'D', 'M', 'E'] = [] :=
  ⟨C7_extension_semantics_amended.1 "r" true 10 [c7file] c7rec
     (by simp [c7_scan_eval]),
   C7_extension_semantics_amended.2.1 ['n', 'o', 't', 'e'] ['t', 'x', 't']
     (by decide) (by decide),
   C7_extension_semantics_amended.2.2.1 ['.'] ['a'] (by decide) (by decide),
   C7_extension_semantics_amended.2.2.2 ['R', 'E', 'A', 'D', 'M', 'E']
     (by decide)⟩

theorem processFile_eq_none {min_size_kb : ℚ} {f : FsFile}
    (h : f.sizeResult = none ∨ f.mtimeResult = none) :
    processFile min_size_kb f = none := by
  rcases f with ⟨d, fn, sz, mt⟩
  rcases h with h | h
  · simp only at h
    subst h
    rfl
  · simp only at h
    subst h
    cases sz with
    | none => rfl
    | some b =>
      simp only [processFile]
      split
      · rfl
      · rfl

/-- C8: a file whose size or modification time cannot be read (the stat
call fails with PermissionError or FileNotFoundError) contributes no
record and does not abort the scan: the scan of a listing containing it
equals the concatenation of the scans of the surrounding listings. -/
theorem C8_inaccessible_file_skipped (folder_path : String)
    (recursive : Bool) (min_size_kb : ℚ) (walk₁ walk₂ : List FsFile)
    (f : FsFile) (h : f.sizeResult = none ∨ f.mtimeResult = none) :
    scan_folder folder_path recursive min_size_kb (walk₁ ++ f :: walk₂)
      = scan_folder folder_path recursive min_size_kb walk₁
        ++ scan_folder folder_path recursive min_size_kb walk₂ := by
  have hnone :
      (if recursive = false ∧ f.dir ≠ folder_path then none
       else processFile min_size_kb f) = none := by
    split
    · rfl
    · exact processFile_eq_none h
  simp only [scan_folder, List.filterMap_append, List.filterMap_cons, hnone]

theorem C8_witness :
    c8bad.sizeResult = none ∧
    scan_folder "r" true 10 ([c8good] ++ c8bad :: []) =
      scan_folder "r" true 10 [c8good] ++ scan_folder "r" true 10 [] :=
  ⟨rfl, C8_inaccessible_file_skipped "r" true 10 [c8good] [] c8bad (Or.inl rfl)⟩

theorem filter_map_sizes (records : List FileRecord) :
    ((records.filter fun r => decide (0 < r.size_kb)).map fun r => r.size_kb)
      = (records.map fun r => r.size_kb).filter fun q => decide (0 < q) := by
  induction records with
  | nil => rfl
  | cons r rest ih =>
    by_cases h : 0 < r.size_kb
    · simp [List.filter_cons, h, ih]
    · simp [List.filter_cons, h, ih]

/-- C2: the summary reports the record count, the sum of all sizes, the
average (sum over count, 0 on an empty record set, with no error), and
the statistical median of the strictly positive sizes (0 when there are
none); zero-size records are excluded from the median input but counted
in total_files and total_size_kb. -/
theorem C2_summary_statistics (records : List FileRecord) :
    (print_summary records).total_files = records.length
    ∧ (print_summary records).total_size_kb
        = (records.map fun r => r.size_kb).sum
    ∧ (print_summary records).average_size_kb
        = (if 0 < records.length
           then (records.map fun r => r.size_kb).sum / (records.length : ℚ)
           else 0)
    ∧ (print_summary records).median_size_kb
        = (if ((records.map fun r => r.size_kb).filter fun q => decide (0 < q))
              = []
           then 0
           else pymedian
             ((records.map fun r => r.size_kb).filter fun q => decide (0 < q)))
    := by
  refine ⟨rfl, rfl, rfl, ?_⟩
  simp only [print_summary, filter_map_sizes]

theorem insertGroup_cons_eq (k : DupKey) (rs₀ : List FileRecord)
    (rest : Groups) (r : FileRecord) :
    insertGroup ((k, rs₀) :: rest) k r = (k, rs₀ ++ [r]) :: rest := by
  simp [insertGroup]

theorem insertGroup_cons_ne {k₀ k : DupKey} (h : k₀ ≠ k)
    (rs₀ : List FileRecord) (rest : Groups) (r : FileRecord) :
    insertGroup ((k₀, rs₀) :: rest) k r
      = (k₀, rs₀) :: insertGroup rest k r := by
  simp [insertGroup, h]

theorem keys_sub_insertGroup :
    ∀ (gs : Groups) (k : DupKey) (r : FileRecord) {k' : DupKey},
      k' ∈ gs.map Prod.fst → k' ∈ (insertGroup gs k r).map Prod.fst := by
  intro gs
  induction gs with
  | nil =>
    intro k r k' h
    simp at h
  | cons hd rest ih =>
    intro k r k' h
    obtain ⟨k₀, rs₀⟩ := hd
    simp only [List.map_cons, List.mem_cons] at h
    by_cases hk : k₀ = k
    · subst hk
      rw [insertGroup_cons_eq]
      simp only [List.map_cons, List.mem_cons]
      exact h
    · rw [insertGroup_cons_ne hk]
      simp only [List.map_cons, List.mem_cons]
      rcases h with h | h
      · exact Or.inl h
      · exact Or.inr (ih k r h)

theorem key_mem_insertGroup :
    ∀ (gs : Groups) (k : DupKey) (r : FileRecord),
      k ∈ (insertGroup gs k r).map Prod.fst := by
  intro gs
  induction gs with
  | nil =>
    intro k r
    simp [insertGroup]
  | cons hd rest ih =>
    intro k r
    obtain ⟨k₀, rs₀⟩ := hd
    by_cases hk : k₀ = k
    · subst hk
      rw [insertGroup_cons_eq]
      simp
    · rw [insertGroup_cons_ne hk]
      simp only [List.map_cons, List.mem_cons]
      exact Or.inr (ih k r)

theorem mem_insertGroup_spec :
    ∀ (gs : Groups), gs.Pairwise (fun a b => a.1 ≠ b.1) →
      ∀ (k : DupKey) (r : FileRecord) (kv : DupKey × List FileRecord),
        kv ∈ insertGroup gs k r →
        (kv ∈ gs ∧ kv.1 ≠ k)
        ∨ (kv = (k, [r]) ∧ k ∉ gs.map Prod.fst)
        ∨ (∃ rs, (k, rs) ∈ gs ∧ kv = (k, rs ++ [r])) := by
  intro gs
  induction gs with
  | nil =>
    intro _ k r kv hkv
    simp only [insertGroup, List.mem_singleton] at hkv
    exact Or.inr (Or.inl ⟨hkv, by simp⟩)
  | cons hd rest ih =>
    intro hpw k r kv hkv
    obtain ⟨k₀, rs₀⟩ := hd
    rw [List.pairwise_cons] at hpw
    obtain ⟨hhead, hrest⟩ := hpw
    by_cases hk : k₀ = k
    · subst hk
      rw [insertGroup_cons_eq] at hkv
      rcases List.mem_cons.mp hkv with rfl | hkv
      · exact Or.inr (Or.inr ⟨rs₀, List.mem_cons_self _ _, rfl⟩)
      · exact Or.inl
          ⟨List.mem_cons_of_mem _ hkv, fun e => (hhead kv hkv) e.symm⟩
    · rw [insertGroup_cons_ne hk] at hkv
      rcases List.mem_cons.mp hkv with rfl | hkv
      · exact Or.inl ⟨List.mem_cons_self _ _, by simpa using hk⟩
      · rcases ih hrest k r kv hkv with
          ⟨hmem, hne⟩ | ⟨heq, hnot⟩ | ⟨rs, hmem, heq⟩
        · exact Or.inl ⟨List.mem_cons_of_mem _ hmem, hne⟩
        · refine Or.inr (Or.inl ⟨heq, ?_⟩)
          simp only [List.map_cons, List.mem_cons]
          rintro (h | h)
          · exact hk h.symm
          · exact hnot h
        · exact Or.inr (Or.inr ⟨rs, List.mem_cons_of_mem _ hmem, heq⟩)

theorem insertGroup_pairwise :
    ∀ (gs : Groups), gs.Pairwise (fun a b => a.1 ≠ b.1) →
      ∀ (k : DupKey) (r : FileRecord),
        (insertGroup gs k r).Pairwise (fun a b => a.1 ≠ b.1) := by
  intro gs
  induction gs with
  | nil =>
    intro _ k r
    simp [insertGroup]
  | cons hd rest ih =>
    intro hpw k r
    obtain ⟨k₀, rs₀⟩ := hd
    rw [List.pairwise_cons] at hpw
    obtain ⟨hhead, hrest⟩ := hpw
    by_cases hk : k₀ = k
    · subst hk
      rw [insertGroup_cons_eq, List.pairwise_cons]
      exact ⟨fun b hb => hhead b hb, hrest⟩
    · rw [insertGroup_cons_ne hk, List.pairwise_cons]
      refine ⟨?_, ih hrest k r⟩
      intro b hb
      rcases mem_insertGroup_spec rest hrest k r b hb with
        ⟨hmem, _⟩ | ⟨heq, _⟩ | ⟨rs, _, heq⟩
      · exact hhead b hmem
      · subst heq
        exact hk
      · subst heq
        exact hk

theorem groupInv_insert {mode : String} {P : List FileRecord} {gs : Groups}
    {r : FileRecord} {k : DupKey} (hinv : groupInv mode P gs)
    (hk : keyOf mode r = some k) :
    groupInv mode (P ++ [r]) (insertGroup gs k r) := by
  obtain ⟨hpw, hmem, hout⟩ := hinv
  have hkeyed_self : keyed mode k r = true := by simp [keyed, hk]
  have hkeyed_ne : ∀ k' : DupKey, k' ≠ k → keyed mode k' r = false := by
    intro k' hne
    simp only [keyed, hk, decide_eq_false_iff_not]
    intro e
    exact hne (Option.some.inj e).symm
  have hfilter : ∀ k' : DupKey, (P ++ [r]).filter (keyed mode k') =
      P.filter (keyed mode k') ++ (if k' = k then [r] else []) := by
    intro k'
    rw [List.filter_append]
    congr 1
    by_cases h : k' = k
    · subst h
      simp [List.filter, hkeyed_self]
    · simp [List.filter, hkeyed_ne k' h, h]
  refine ⟨insertGroup_pairwise gs hpw k r, ?_, ?_⟩
  · intro kv hkv
    rcases mem_insertGroup_spec gs hpw k r kv hkv with
      ⟨hm, hne⟩ | ⟨heq, hnot⟩ | ⟨rs, hm, heq⟩
    · rw [hfilter kv.1, if_neg hne, List.append_nil]
      exact hmem kv hm
    · subst heq
      rw [hfilter k, if_pos rfl, hout k hnot]
      rfl
    · subst heq
      rw [hfilter k, if_pos rfl, ← hmem (k, rs) hm]
  · intro k' hk'
    have h1 : k' ∉ gs.map Prod.fst := fun h => hk' (keys_sub_insertGroup gs k r h)
    have h2 : k' ≠ k := fun e => hk' (e ▸ key_mem_insertGroup gs k r)
    rw [hfilter k', if_neg h2, List.append_nil]
    exact hout k' h1

theorem groupInv_nil (mode : String) : groupInv mode [] [] :=
  ⟨List.Pairwise.nil, by simp, by simp⟩

theorem buildGroups_inv {mode : String} :
    ∀ (rs : List FileRecord) (P : List FileRecord) (gs : Groups),
      groupInv mode P gs → (∀ r ∈ rs, ∃ k, keyOf mode r = some k) →
      ∃ gs', buildGroups mode rs gs = some gs'
        ∧ groupInv mode (P ++ rs) gs' := by
  intro rs
  induction rs with
  | nil =>
    intro P gs hinv _
    exact ⟨gs, rfl, by simpa using hinv⟩
  | cons r rest ih =>
    intro P gs hinv hall
    obtain ⟨k, hk⟩ := hall r (List.mem_cons_self r rest)
    obtain ⟨gs', hbuild, hinv2⟩ := ih (P ++ [r]) (insertGroup gs k r)
      (groupInv_insert hinv hk)
      (fun r' hr' => hall r' (List.mem_cons_of_mem _ hr'))
    refine ⟨gs', ?_, ?_⟩
    · simp only [buildGroups, hk]
      exact hbuild
    · simpa [List.append_assoc] using hinv2

theorem keyOf_valid {mode : String} (h : mode = "size" ∨ mode = "name")
    (r : FileRecord) : ∃ k, keyOf mode r = some k := by
  rcases h with rfl | rfl
  · exact ⟨DupKey.bySize (pyRound (r.size_kb / 2)) (strLower r.extension),
      by simp [keyOf]⟩
  · exact ⟨DupKey.byName (strLower r.filename), by simp [keyOf]⟩

theorem find_duplicates_ok {mode : String} (records : List FileRecord)
    (h : mode = "size" ∨ mode = "name") :
    ∃ gsf, buildGroups mode records [] = some gsf
      ∧ groupInv mode records gsf
      ∧ find_duplicates records mode
          = Except.ok (gsf.filter fun kv => decide (1 < kv.2.length)) := by
  obtain ⟨gsf, hbuild, hinv⟩ := buildGroups_inv records [] []
    (groupInv_nil mode) (fun r _ => keyOf_valid h r)
  refine ⟨gsf, hbuild, by simpa using hinv, ?_⟩
  simp only [find_duplicates, hbuild]

/-- C6: for every valid mode, the returned mapping holds exactly the keys
whose full member sequence has at least two records (singletons and empty
groups are absent), and each group is the subsequence of the input with
that key, hence in input order. -/
theorem C6_groups_length_two_and_stable (mode : String)
    (records : List FileRecord) (gs : Groups)
    (hmode : mode = "size" ∨ mode = "name")
    (hgs : find_duplicates records mode = Except.ok gs) :
    (∀ kv ∈ gs, 2 ≤ kv.2.length ∧ kv.2 = records.filter (keyed mode kv.1))
    ∧ (∀ k : DupKey, 2 ≤ (records.filter (keyed mode k)).length →
        ∃ v, (k, v) ∈ gs) := by
  obtain ⟨gsf, hbuild, ⟨hpw, hmem, hout⟩, heq⟩ := find_duplicates_ok records hmode
  rw [hgs] at heq
  simp only [Except.ok.injEq] at heq
  subst heq
  constructor
  · intro kv hkv
    rw [List.mem_filter] at hkv
    obtain ⟨hkv, hlen⟩ := hkv
    have hlen2 := of_decide_eq_true hlen
    exact ⟨by omega, hmem kv hkv⟩
  · intro k hlen
    have hne : records.filter (keyed mode k) ≠ [] := by
      intro h0
      rw [h0] at hlen
      simp at hlen
    have hkmem : k ∈ gsf.map Prod.fst := by
      by_contra hnot
      exact hne (hout k hnot)
    obtain ⟨kv, hkv, hfst⟩ := List.mem_map.mp hkmem
    have hv : kv.2 = records.filter (keyed mode k) := by
      rw [← hfst]
      exact hmem kv hkv
    have hkv2 : (k, kv.2) = kv := by
      obtain ⟨a, b⟩ := kv
      cases hfst
      rfl
    refine ⟨kv.2, ?_⟩
    rw [hkv2, List.mem_filter]
    refine ⟨hkv, ?_⟩
    rw [hv]
    exact decide_eq_true (by omega)

theorem c6_eval : find_duplicates [c6r1, c6r2] "name" = Except.ok c6gs := rfl

theorem C6_witness :
    (∀ kv ∈ c6gs, 2 ≤ kv.2.length
      ∧ kv.2 = [c6r1, c6r2].filter (keyed "name" kv.1))
    ∧ (∀ k : DupKey, 2 ≤ ([c6r1, c6r2].filter (keyed "name" k)).length →
        ∃ v, (k, v) ∈ c6gs) :=
  C6_groups_length_two_and_stable "name" [c6r1, c6r2] c6gs (Or.inr rfl) c6_eval

/-- C10: for every valid mode, every member of each returned group maps to
that group key, every group is a subsequence of the input (so each input
occurrence is used at most once), and distinct groups share no record. -/
theorem C10_groups_partition (mode : String) (records : List FileRecord)
    (gs : Groups) (hmode : mode = "size" ∨ mode = "name")
    (hgs : find_duplicates records mode = Except.ok gs) :
    (∀ kv ∈ gs, (∀ r ∈ kv.2, keyOf mode r = some kv.1)
      ∧ kv.2.Sublist records)
    ∧ gs.Pairwise (fun a b => ∀ r ∈ a.2, r ∉ b.2) := by
  obtain ⟨gsf, hbuild, ⟨hpw, hmem, hout⟩, heq⟩ := find_duplicates_ok records hmode
  rw [hgs] at heq
  simp only [Except.ok.injEq] at heq
  subst heq
  have hokey : ∀ kv ∈ gsf.filter fun kv => decide (1 < kv.2.length),
      ∀ r ∈ kv.2, keyOf mode r = some kv.1 := by
    intro kv hkv r hr
    have hkvf := (List.mem_filter.mp hkv).1
    rw [hmem kv hkvf] at hr
    have hkey := (List.mem_filter.mp hr).2
    exact of_decide_eq_true hkey
  constructor
  · intro kv hkv
    refine ⟨hokey kv hkv, ?_⟩
    have hkvf := (List.mem_filter.mp hkv).1
    rw [hmem kv hkvf]
    exact List.filter_sublist records
  · have hpwf : (gsf.filter fun kv => decide (1 < kv.2.length)).Pairwise
        (fun a b => a.1 ≠ b.1) := hpw.filter _
    refine hpwf.imp_of_mem ?_
    intro a b ha hb hne r hra hrb
    have h1 := hokey a ha r hra
    have h2 := hokey b hb r hrb
    rw [h1] at h2
    exact hne (Option.some.inj h2)

theorem c10_eval :
    find_duplicates [c10r1, c10r2] "size" = Except.ok c10gs := by
  have hs : strLower ".bin" = ".bin" := by decide
  have h1 : pyRound ((40 : ℚ) / 2) = 20 := by norm_num [pyRound]
  have h2 : pyRound ((41 : ℚ) / 2) = 20 := by norm_num [pyRound]
  have hk1 : keyOf "size" c10r1 = some (DupKey.bySize 20 ".bin") := by
    simp [keyOf, c10r1, h1, hs]
  have hk2 : keyOf "size" c10r2 = some (DupKey.bySize 20 ".bin") := by
    simp [keyOf, c10r2, h2, hs]
  simp [find_duplicates, buildGroups, insertGroup, hk1, hk2, c10gs]

theorem C10_witness :
    (∀ kv ∈ c10gs, (∀ r ∈ kv.2, keyOf "size" r = some kv.1)
      ∧ kv.2.Sublist [c10r1, c10r2])
    ∧ c10gs.Pairwise (fun a b => ∀ r ∈ a.2, r ∉ b.2) :=
  C10_groups_partition "size" [c10r1, c10r2] c10gs (Or.inl rfl) c10_eval

/-- C3: in size mode the key assigned to every record is the pair of the
half size rounded half-to-even and the lower-cased extension; concretely,
pdf records of 11.0 and 12.5 KB share the key and form a group, which the
docx record of 11.0 KB does not join. -/
theorem C3_size_mode_key :
    (∀ r : FileRecord, keyOf "size" r
        = some (DupKey.bySize (pyRound (r.size_kb / 2)) (strLower r.extension)))
    ∧ find_duplicates [c3pdfA, c3pdfB, c3docx] "size"
        = Except.ok [(DupKey.bySize 6 "pdf", [c3pdfA, c3pdfB])] := by
  constructor
  · intro r
    simp [keyOf]
  · have hpdf : strLower "pdf" = "pdf" := by decide
    have hdocx : strLower "docx" = "docx" := by decide
    have h1 : pyRound ((11 : ℚ) / 2) = 6 := by norm_num [pyRound]
    have h2 : pyRound ((25 / 2 : ℚ) / 2) = 6 := by norm_num [pyRound]
    have hk1 : keyOf "size" c3pdfA = some (DupKey.bySize 6 "pdf") := by
      simp [keyOf, c3pdfA, h1, hpdf]
    have hk2 : keyOf "size" c3pdfB = some (DupKey.bySize 6 "pdf") := by
      simp [keyOf, c3pdfB, h2, hpdf]
    have hk3 : keyOf "size" c3docx = some (DupKey.bySize 6 "docx") := by
      simp [keyOf, c3docx, h1, hdocx]
    simp [find_duplicates, buildGroups, insertGroup, hk1, hk2, hk3]

/-- C4: in name mode the key assigned to every record is its lower-cased
filename with the extension included; concretely, Report.PDF and
report.pdf in different directories group together and report.pdf.bak
does not join that group. -/
theorem C4_name_mode_key :
    (∀ r : FileRecord, keyOf "name" r
        = some (DupKey.byName (strLower r.filename)))
    ∧ find_duplicates [c4rep1, c4rep2, c4bak] "name"
        = Except.ok [(DupKey.byName "report.pdf", [c4rep1, c4rep2])] := by
  constructor
  · intro r
    simp [keyOf]
  · rfl

/-- C9: on the empty record sequence find_duplicates returns the empty
mapping for every mode string, including unrecognized ones, because the
mode check sits inside the per-record loop and is never reached. -/
theorem C9_empty_records_no_mode_check (mode : String) :
    find_duplicates [] mode = Except.ok [] := rfl

/-- C5 counterexample: with an empty record sequence and the unrecognized
mode string hash, find_duplicates returns the empty mapping successfully
instead of failing, so the claim as stated is false. -/
theorem C5_counterexample : find_duplicates [] "hash" = Except.ok [] := rfl

/-- C5 (amended): for every nonempty record sequence and every mode other
than size and name, find_duplicates raises the ValueError immediately;
on the empty sequence the per-record mode check is never reached and the
empty mapping is returned instead. -/
theorem C5_invalid_mode_raises (records : List FileRecord) (mode : String)
    (h1 : mode ≠ "size") (h2 : mode ≠ "name") (h3 : records ≠ []) :
    find_duplicates records mode
      = Except.error "Mode must be either 'size' or 'name'" := by
  obtain ⟨r, rest, rfl⟩ := List.exists_cons_of_ne_nil h3
  have hk : keyOf mode r = none := by simp [keyOf, h1, h2]
  simp only [find_duplicates, buildGroups, hk]

theorem C5_witness :
    ("hash" : String) ≠ "size" ∧ ([c5rec] : List FileRecord) ≠ [] ∧
    find_duplicates [c5rec] "hash"
      = Except.error "Mode must be either 'size' or 'name'" :=
  ⟨by decide, by simp,
   C5_invalid_mode_raises [c5rec] "hash" (by decide) (by decide) (by simp)⟩

end FolderAudit
